import Mathlib

/-!
Verification of the signal-processing downsampler: a shallow embedding of
`src/solution.py` (the constant `KAISER_CONVOLUTION_FILTER` and the functions
`decimate_by_2`, `downsample_by_2`, `convolve_arrays`) over lists of rationals,
with theorems settling the specified properties.

Conventions of the embedding:
  * Python floats are modelled as rationals (the spec speaks of sequences of
    real numbers; all arithmetic facts proved here are exact).
  * Python `//` (floor division) on possibly negative integers is `Int.fdiv`.
  * Functions that can `raise ValueError` return `Except String _`.
  * The inner loop of `convolve_arrays`, with its early `break` on a negative
    signal index and `continue` on an overflowing one, is embedded as the
    structurally recursive `convLoop` over the remaining filter taps.
-/

namespace Solution

/-- The shipped 32-tap low-pass kernel, transcribed from the source. -/
def KAISER_CONVOLUTION_FILTER : List ℚ :=
  [-0.01452123, -0.0155227 , 0.01667252, 0.01800633, -0.01957209,
   -0.0214361 , 0.02369253, 0.02647989, -0.03001054, -0.03462755,
    0.04092347, 0.05001757, -0.06430831, -0.09003163, 0.15005272,
    0.45015816, 0.45015816, 0.15005272, -0.09003163, -0.06430831,
    0.05001757, 0.04092347, -0.03462755, -0.03001054, 0.02647989,
    0.02369253, -0.0214361 , -0.01957209, 0.01800633, 0.01667252,
   -0.0155227 , -0.01452123]

/-- The error message of the single `ValueError` raised by the source. -/
def emptyInputError : String := "Audio signal not provided."

/-- `signal[::2]`: every other element of a list, starting at index 0. -/
def stride2 : List ℚ → List ℚ
  | [] => []
  | [x] => [x]
  | x :: _ :: rest => x :: stride2 rest

/-- `decimate_by_2` from the source: rejects an empty list, otherwise
returns `signal[::2]`. -/
def decimate_by_2 (signal : List ℚ) : Except String (List ℚ) :=
  if signal = [] then .error emptyInputError
  else .ok (stride2 signal)

/-- `centering_factor` as computed inside `convolve_arrays`:
`(min(len(signal), len(conv_filter)) - 1) // 2` with Python floor division. -/
def centering_factor (signal conv_filter : List ℚ) : ℤ :=
  ((min signal.length conv_filter.length : ℤ) - 1).fdiv 2

/-- The inner `for k in range(len(conv_filter))` loop of `convolve_arrays`,
recursing over the remaining filter taps. `k` is the current tap index and
`acc` the `running_sum`; a negative `signal_idx` stops the loop (`break`),
an overflowing one skips the tap (`continue`). -/
def convLoop (signal : List ℚ) (n c : ℤ) : List ℚ → ℤ → ℚ → ℚ
  | [], _, acc => acc
  | f :: rest, k, acc =>
    if n - k + c < 0 then acc
    else if n - k + c > (signal.length : ℤ) - 1 then
      convLoop signal n c rest (k + 1) acc
    else
      convLoop signal n c rest (k + 1) (acc + f * signal.getD (n - k + c).toNat 0)

/-- `convolve_arrays` from the source: same-length discrete linear
convolution, output index `n` running over `range(max(len(signal),
len(conv_filter)))`. -/
def convolve_arrays (signal conv_filter : List ℚ) : List ℚ :=
  (List.range (max signal.length conv_filter.length)).map
    (fun (n : ℕ) =>
      convLoop signal ((n : ℕ) : ℤ) (centering_factor signal conv_filter) conv_filter 0 0)

/-- `downsample_by_2` from the source: rejects an empty list, otherwise
convolves with the fixed kernel and decimates the result. -/
def downsample_by_2 (signal : List ℚ) : Except String (List ℚ) :=
  if signal = [] then .error emptyInputError
  else decimate_by_2 (convolve_arrays signal KAISER_CONVOLUTION_FILTER)

/-- Reading a list at an integer index, with implicit zero padding outside
`[0, length)`. -/
def getPad (l : List ℚ) (i : ℤ) : ℚ :=
  if 0 ≤ i then l.getD i.toNat 0 else 0

/-- Modelled from the spec: the full linear convolution of `a` and `b`
(`output[m] = sum over k of b[k] * a[m - k]`, zero padding outside `a`),
read at an arbitrary integer index. Used to compare `convolve_arrays`
against the centered middle of the full convolution. -/
def fullConv (a b : List ℚ) (m : ℤ) : ℚ :=
  ∑ k ∈ Finset.range b.length, b.getD k 0 * getPad a (m - k)

theorem getPad_of_neg (l : List ℚ) (i : ℤ) (h : i < 0) : getPad l i = 0 := by
  simp [getPad, not_le.mpr h]

theorem getPad_of_ge (l : List ℚ) (i : ℤ) (h : (l.length : ℤ) ≤ i) :
    getPad l i = 0 := by
  have h0 : 0 ≤ i := le_trans (Int.ofNat_nonneg _) h
  have : l.length ≤ i.toNat := by omega
  simp [getPad, h0, List.getD_eq_getElem?_getD, List.getElem?_eq_none this]

theorem getPad_of_nonneg (l : List ℚ) (i : ℤ) (h : 0 ≤ i) :
    getPad l i = l.getD i.toNat 0 := by
  simp [getPad, h]

/-- The inner loop computes the full tap sum with zero padding: the early
break and the skip only ever drop taps whose padded signal value is zero. -/
theorem convLoop_eq (s : List ℚ) (n c : ℤ) :
    ∀ (rest : List ℚ) (k : ℤ) (acc : ℚ),
      convLoop s n c rest k acc
        = acc + ∑ j ∈ Finset.range rest.length,
            rest.getD j 0 * getPad s (n - (k + j) + c)
  | [], k, acc => by simp [convLoop]
  | f :: rest, k, acc => by
    rw [convLoop]
    by_cases h1 : n - k + c < 0
    · rw [if_pos h1]
      rw [Finset.sum_eq_zero, add_zero]
      intro j _
      rw [getPad_of_neg, mul_zero]
      have : (0 : ℤ) ≤ (j : ℤ) := Int.ofNat_nonneg j
      omega
    · rw [if_neg h1]
      have hsplit :
          ∑ j ∈ Finset.range (f :: rest).length,
              (f :: rest).getD j 0 * getPad s (n - (k + j) + c)
            = (∑ j ∈ Finset.range rest.length,
                rest.getD j 0 * getPad s (n - ((k + 1) + j) + c))
              + f * getPad s (n - k + c) := by
        rw [List.length_cons, Finset.sum_range_succ']
        congr 1
        · refine Finset.sum_congr rfl (fun j _ => ?_)
          have hidx : n - (k + ((j : ℤ) + 1)) + c = n - ((k + 1) + (j : ℤ)) + c := by
            ring
          simp only [List.getD_cons_succ]
          rw [show ((j + 1 : ℕ) : ℤ) = (j : ℤ) + 1 by push_cast; ring, hidx]
        · simp only [List.getD_cons_zero]
          norm_num
      by_cases h2 : n - k + c > (s.length : ℤ) - 1
      · rw [if_pos h2, convLoop_eq s n c rest (k + 1) acc, hsplit]
        rw [getPad_of_ge s _ (by omega), mul_zero, add_zero]
      · rw [if_neg h2, convLoop_eq s n c rest (k + 1) _, hsplit]
        rw [getPad_of_nonneg s _ (by omega)]
        ring

theorem convolve_arrays_length (s f : List ℚ) :
    (convolve_arrays s f).length = max s.length f.length := by
  unfold convolve_arrays
  rw [List.length_map, List.length_range]

theorem convolve_arrays_getD (s f : List ℚ) (n : ℕ)
    (hn : n < max s.length f.length) :
    (convolve_arrays s f).getD n 0
      = ∑ k ∈ Finset.range f.length,
          f.getD k 0 * getPad s ((n : ℤ) - k + centering_factor s f) := by
  rw [List.getD_eq_getElem?_getD]
  unfold convolve_arrays
  rw [List.getElem?_map, List.getElem?_range hn, Option.map_some',
    Option.getD_some]
  rw [convLoop_eq, zero_add]
  exact Finset.sum_congr rfl (fun j _ => by rw [zero_add])

/-- `getPad` written as a sum of indicator terms, to reshape convolutions
into double sums. -/
theorem getPad_eq_sum (l : List ℚ) (i : ℤ) :
    getPad l i = ∑ j ∈ Finset.range l.length, if (j : ℤ) = i then l.getD j 0 else 0 := by
  by_cases h0 : 0 ≤ i
  · by_cases hlt : i < (l.length : ℤ)
    · have hmem : i.toNat ∈ Finset.range l.length := by
        rw [Finset.mem_range]; omega
      rw [getPad_of_nonneg l i h0]
      rw [Finset.sum_eq_single i.toNat]
      · rw [if_pos (by omega)]
      · intro j _ hj
        rw [if_neg (by omega)]
      · intro habs
        exact absurd hmem habs
    · rw [getPad_of_ge l i (by omega)]
      rw [Finset.sum_eq_zero]
      intro j hj
      rw [Finset.mem_range] at hj
      rw [if_neg (by omega)]
  · rw [getPad_of_neg l i (by omega)]
    rw [Finset.sum_eq_zero]
    intro j _
    have : (0 : ℤ) ≤ (j : ℤ) := Int.ofNat_nonneg j
    rw [if_neg (by omega)]

/-- The full linear convolution is commutative. -/
theorem fullConv_comm (a b : List ℚ) (m : ℤ) : fullConv a b m = fullConv b a m := by
  unfold fullConv
  have expand : ∀ (x y : List ℚ),
      ∑ k ∈ Finset.range y.length, y.getD k 0 * getPad x (m - k)
        = ∑ k ∈ Finset.range y.length, ∑ j ∈ Finset.range x.length,
            if (j : ℤ) + (k : ℤ) = m then y.getD k 0 * x.getD j 0 else 0 := by
    intro x y
    refine Finset.sum_congr rfl (fun k _ => ?_)
    rw [getPad_eq_sum, Finset.mul_sum]
    refine Finset.sum_congr rfl (fun j _ => ?_)
    by_cases hc : (j : ℤ) = m - (k : ℤ)
    · rw [if_pos hc, if_pos (by omega)]
    · rw [if_neg hc, if_neg (by omega), mul_zero]
  rw [expand a b, expand b a, Finset.sum_comm]
  refine Finset.sum_congr rfl (fun j _ => Finset.sum_congr rfl (fun k _ => ?_))
  by_cases hc : (j : ℤ) + (k : ℤ) = m
  · rw [if_pos hc, if_pos (by omega), mul_comm]
  · rw [if_neg hc, if_neg (by omega)]

/-- Each output element of `convolve_arrays` is the full convolution read at
the index shifted by the centering factor. -/
theorem convolve_arrays_getD_fullConv (s f : List ℚ) (n : ℕ)
    (hn : n < max s.length f.length) :
    (convolve_arrays s f).getD n 0 = fullConv s f ((n : ℤ) + centering_factor s f) := by
  rw [convolve_arrays_getD s f n hn]
  unfold fullConv
  refine Finset.sum_congr rfl (fun k _ => ?_)
  congr 1
  congr 1
  ring

theorem getD_of_lt (l : List ℚ) (i : ℕ) (h : i < l.length) : l.getD i 0 = l[i] := by
  rw [List.getD_eq_getElem?_getD, List.getElem?_eq_getElem h, Option.getD_some]

theorem stride2_length : ∀ s : List ℚ, (stride2 s).length = (s.length + 1) / 2
  | [] => rfl
  | [_] => by simp [stride2]
  | _ :: _ :: rest => by
    simp only [stride2, List.length_cons, stride2_length rest]
    omega

theorem stride2_getD : ∀ (s : List ℚ) (i : ℕ), (stride2 s).getD i 0 = s.getD (2 * i) 0
  | [], _ => rfl
  | [_], i => by
    cases i with
    | zero => rfl
    | succ j =>
      rw [show 2 * (j + 1) = (2 * j + 1) + 1 from by ring]
      simp [stride2, List.getD_cons_succ]
  | _ :: _ :: rest, i => by
    cases i with
    | zero => rfl
    | succ j =>
      rw [show 2 * (j + 1) = (2 * j + 1) + 1 from by ring]
      simp only [stride2, List.getD_cons_succ]
      exact stride2_getD rest j

theorem kaiser_length : KAISER_CONVOLUTION_FILTER.length = 32 := rfl

theorem convolve_kaiser_ne_nil (s : List ℚ) :
    convolve_arrays s KAISER_CONVOLUTION_FILTER ≠ [] := by
  intro h
  have hl := convolve_arrays_length s KAISER_CONVOLUTION_FILTER
  rw [h, kaiser_length] at hl
  simp only [List.length_nil] at hl
  omega

theorem downsample_by_2_ok (s : List ℚ) (hs : s ≠ []) :
    downsample_by_2 s
      = .ok (stride2 (convolve_arrays s KAISER_CONVOLUTION_FILTER)) := by
  rw [downsample_by_2, if_neg hs, decimate_by_2,
    if_neg (convolve_kaiser_ne_nil s)]

/-- C1: for non-empty `signal` and `kernel`, `convolve_arrays` returns a list
of length `N = max(len(signal), len(kernel))` whose `n`-th element, for every
`n < N`, is the sum over `k < len(kernel)` of
`kernel[k] * signal[n - k + centering_factor]`, out-of-range signal indices
contributing zero (implicit zero padding, captured by `getPad`); hence the
early break on a negative index and the skip on an overflowing index never
drop a nonzero term. -/
theorem convolve_arrays_pointwise_sum (signal kernel : List ℚ)
    (_hs : signal ≠ []) (_hk : kernel ≠ []) :
    (convolve_arrays signal kernel).length = max signal.length kernel.length ∧
    ∀ n < max signal.length kernel.length,
      (convolve_arrays signal kernel).getD n 0
        = ∑ k ∈ Finset.range kernel.length,
            kernel.getD k 0
              * getPad signal ((n : ℤ) - k + centering_factor signal kernel) :=
  ⟨convolve_arrays_length signal kernel,
   fun n hn => convolve_arrays_getD signal kernel n hn⟩

theorem convolve_arrays_pointwise_sum_witness :
    (([1, 2] : List ℚ) ≠ []) ∧ (([3] : List ℚ) ≠ []) ∧
    ((convolve_arrays [1, 2] [3]).length
        = max (List.length ([1, 2] : List ℚ)) (List.length ([3] : List ℚ)) ∧
      ∀ n < max (List.length ([1, 2] : List ℚ)) (List.length ([3] : List ℚ)),
        (convolve_arrays [1, 2] [3]).getD n 0
          = ∑ k ∈ Finset.range (List.length ([3] : List ℚ)),
              ([3] : List ℚ).getD k 0
                * getPad [1, 2] ((n : ℤ) - k + centering_factor [1, 2] [3])) :=
  ⟨by decide, by decide,
   convolve_arrays_pointwise_sum [1, 2] [3] (by decide) (by decide)⟩

/-- C2: for non-empty `a` and `b`, the output of `convolve_arrays a b` is
exactly the centered middle `max(len(a), len(b))` samples of the full linear
convolution: `output[n] = full[n + c]` with
`c = (min(len(a), len(b)) - 1) // 2`, for every parity combination of the two
lengths (the proof is uniform in the lengths). -/
theorem convolve_arrays_centered_full (a b : List ℚ) (_ha : a ≠ []) (_hb : b ≠ []) :
    (convolve_arrays a b).length = max a.length b.length ∧
    ∀ n < max a.length b.length,
      (convolve_arrays a b).getD n 0
        = fullConv a b ((n : ℤ) + centering_factor a b) :=
  ⟨convolve_arrays_length a b,
   fun n hn => convolve_arrays_getD_fullConv a b n hn⟩

theorem convolve_arrays_centered_full_witness :
    (([5, 7] : List ℚ) ≠ []) ∧ (([2, 4, 6] : List ℚ) ≠ []) ∧
    ((convolve_arrays [5, 7] [2, 4, 6]).length
        = max (List.length ([5, 7] : List ℚ)) (List.length ([2, 4, 6] : List ℚ)) ∧
      ∀ n < max (List.length ([5, 7] : List ℚ)) (List.length ([2, 4, 6] : List ℚ)),
        (convolve_arrays [5, 7] [2, 4, 6]).getD n 0
          = fullConv [5, 7] [2, 4, 6] ((n : ℤ) + centering_factor [5, 7] [2, 4, 6])) :=
  ⟨by decide, by decide,
   convolve_arrays_centered_full [5, 7] [2, 4, 6] (by decide) (by decide)⟩

/-- C3: for non-empty `a` and `b`, `convolve_arrays a b = convolve_arrays b a`
as lists. -/
theorem convolve_arrays_comm (a b : List ℚ) (_ha : a ≠ []) (_hb : b ≠ []) :
    convolve_arrays a b = convolve_arrays b a := by
  have hc : centering_factor a b = centering_factor b a := by
    unfold centering_factor
    rw [min_comm]
  apply List.ext_getElem
  · rw [convolve_arrays_length, convolve_arrays_length, max_comm]
  · intro i h1 h2
    rw [convolve_arrays_length] at h1 h2
    rw [← getD_of_lt _ i (by rw [convolve_arrays_length]; exact h1),
      ← getD_of_lt _ i (by rw [convolve_arrays_length]; exact h2)]
    rw [convolve_arrays_getD_fullConv a b i h1,
      convolve_arrays_getD_fullConv b a i h2]
    rw [fullConv_comm, hc]

theorem convolve_arrays_comm_witness :
    (([2, 1, -1, 3, 10] : List ℚ) ≠ []) ∧ (([4, 3, 2] : List ℚ) ≠ []) ∧
    convolve_arrays [2, 1, -1, 3, 10] [4, 3, 2]
      = convolve_arrays [4, 3, 2] [2, 1, -1, 3, 10] :=
  ⟨by decide, by decide,
   convolve_arrays_comm [2, 1, -1, 3, 10] [4, 3, 2] (by decide) (by decide)⟩

/-- C4: for non-empty `s`, `decimate_by_2 s` succeeds with exactly the
elements of `s` at even positions, in order: the result has length
`ceil(len(s) / 2) = (len(s) + 1) / 2` and its `i`-th element is `s[2 * i]`
(both reads via `getD` with default 0, which agree with true indexing inside
the stated lengths). -/
theorem decimate_by_2_even_positions (s : List ℚ) (hs : s ≠ []) :
    ∃ l, decimate_by_2 s = .ok l ∧
      l.length = (s.length + 1) / 2 ∧
      ∀ i, l.getD i 0 = s.getD (2 * i) 0 := by
  refine ⟨stride2 s, ?_, stride2_length s, fun i => stride2_getD s i⟩
  rw [decimate_by_2, if_neg hs]

theorem decimate_by_2_even_positions_witness :
    (([10, 20, 30, 40, 50] : List ℚ) ≠ []) ∧
    ∃ l, decimate_by_2 [10, 20, 30, 40, 50] = .ok l ∧
      l.length = (List.length ([10, 20, 30, 40, 50] : List ℚ) + 1) / 2 ∧
      ∀ i, l.getD i 0 = ([10, 20, 30, 40, 50] : List ℚ).getD (2 * i) 0 :=
  ⟨by decide, decimate_by_2_even_positions [10, 20, 30, 40, 50] (by decide)⟩

/-- C5: `decimate_by_2` and `downsample_by_2` fail — with the one shared
empty-input `ValueError` message — exactly when the input is empty, and
succeed on every non-empty input. In the embedding the emptiness test is the
first thing each function evaluates, matching the source's early check. -/
theorem empty_input_error_iff (s : List ℚ) :
    (decimate_by_2 s = .error emptyInputError ↔ s = []) ∧
    (downsample_by_2 s = .error emptyInputError ↔ s = []) ∧
    ((∃ l, decimate_by_2 s = .ok l) ↔ s ≠ []) ∧
    ((∃ l, downsample_by_2 s = .ok l) ↔ s ≠ []) := by
  by_cases hs : s = []
  · subst hs
    refine ⟨⟨fun _ => rfl, fun _ => rfl⟩, ⟨fun _ => rfl, fun _ => rfl⟩, ?_, ?_⟩
    · constructor
      · rintro ⟨l, hl⟩
        rw [decimate_by_2, if_pos rfl] at hl
        exact absurd hl (by simp)
      · intro h
        exact absurd rfl h
    · constructor
      · rintro ⟨l, hl⟩
        rw [downsample_by_2, if_pos rfl] at hl
        exact absurd hl (by simp)
      · intro h
        exact absurd rfl h
  · have hdec : decimate_by_2 s = .ok (stride2 s) := by
      rw [decimate_by_2, if_neg hs]
    have hdown := downsample_by_2_ok s hs
    refine ⟨?_, ?_, ?_, ?_⟩
    · rw [hdec]
      constructor
      · intro h
        exact absurd h (by simp)
      · intro h
        exact absurd h hs
    · rw [hdown]
      constructor
      · intro h
        exact absurd h (by simp)
      · intro h
        exact absurd h hs
    · exact ⟨fun _ => hs, fun _ => ⟨stride2 s, hdec⟩⟩
    · exact ⟨fun _ => hs, fun _ => ⟨_, hdown⟩⟩

/-- C6: for non-empty `s`, `downsample_by_2 s` is exactly
`decimate_by_2 (convolve_arrays s KAISER_CONVOLUTION_FILTER)`: the
downsampler is the composition of the convolution engine with the fixed
kernel followed by the decimator. -/
theorem downsample_by_2_is_composition (s : List ℚ) (hs : s ≠ []) :
    downsample_by_2 s
      = decimate_by_2 (convolve_arrays s KAISER_CONVOLUTION_FILTER) := by
  rw [downsample_by_2, if_neg hs]

theorem downsample_by_2_is_composition_witness :
    (([1, 2, 3] : List ℚ) ≠ []) ∧
    downsample_by_2 [1, 2, 3]
      = decimate_by_2 (convolve_arrays [1, 2, 3] KAISER_CONVOLUTION_FILTER) :=
  ⟨by decide, downsample_by_2_is_composition [1, 2, 3] (by decide)⟩

/-- C7: for non-empty `s`, `downsample_by_2 s` succeeds and its result has
length `ceil(max(len(s), 32) / 2) = (max(len(s), 32) + 1) / 2`; when
`len(s) >= 32` this is `ceil(len(s) / 2) = (len(s) + 1) / 2`. -/
theorem downsample_by_2_length (s : List ℚ) (hs : s ≠ []) :
    ∃ l, downsample_by_2 s = .ok l ∧
      l.length = (max s.length 32 + 1) / 2 ∧
      (32 ≤ s.length → l.length = (s.length + 1) / 2) := by
  refine ⟨stride2 (convolve_arrays s KAISER_CONVOLUTION_FILTER),
    downsample_by_2_ok s hs, ?_, ?_⟩
  · rw [stride2_length, convolve_arrays_length, kaiser_length]
  · intro h32
    rw [stride2_length, convolve_arrays_length, kaiser_length,
      max_eq_left h32]

theorem downsample_by_2_length_witness :
    (([3, 1, 4] : List ℚ) ≠ []) ∧
    ∃ l, downsample_by_2 [3, 1, 4] = .ok l ∧
      l.length = (max (List.length ([3, 1, 4] : List ℚ)) 32 + 1) / 2 ∧
      (32 ≤ List.length ([3, 1, 4] : List ℚ) →
        l.length = (List.length ([3, 1, 4] : List ℚ) + 1) / 2) :=
  ⟨by decide, downsample_by_2_length [3, 1, 4] (by decide)⟩

/-- C8: the shipped kernel has exactly 32 elements and is symmetric:
element `i` equals element `31 - i` for every `i < 32`. -/
theorem kaiser_filter_length_and_symmetric :
    KAISER_CONVOLUTION_FILTER.length = 32 ∧
    ∀ i < 32, KAISER_CONVOLUTION_FILTER.getD i 0
      = KAISER_CONVOLUTION_FILTER.getD (31 - i) 0 := by
  refine ⟨rfl, fun i hi => ?_⟩
  have hrev : KAISER_CONVOLUTION_FILTER.reverse = KAISER_CONVOLUTION_FILTER := rfl
  have hlen : KAISER_CONVOLUTION_FILTER.length = 32 := rfl
  have hi1 : i < KAISER_CONVOLUTION_FILTER.length := by omega
  rw [List.getD_eq_getElem?_getD, List.getD_eq_getElem?_getD]
  have h1 : KAISER_CONVOLUTION_FILTER[i]?
      = KAISER_CONVOLUTION_FILTER.reverse[i]? := by
    rw [hrev]
  rw [h1, List.getElem?_reverse hi1,
    show KAISER_CONVOLUTION_FILTER.length - 1 - i = 31 - i from by
      rw [hlen]]

/-- C9: with at least one empty input, `convolve_arrays` raises nothing and
returns the all-zero list of length `max(len(signal), len(conv_filter))`
(so both-empty gives `[]`), even though the centering factor floor-computes
to `-1` when the shorter length is 0. -/
theorem convolve_arrays_empty_input (s f : List ℚ) (h : s = [] ∨ f = []) :
    convolve_arrays s f = List.replicate (max s.length f.length) 0 ∧
    centering_factor s f = -1 := by
  constructor
  · apply List.ext_getElem
    · rw [convolve_arrays_length, List.length_replicate]
    · intro i h1 h2
      rw [List.getElem_replicate]
      rw [← getD_of_lt _ i h1]
      rw [convolve_arrays_length] at h1
      rw [convolve_arrays_getD s f i h1]
      rcases h with hs | hf
      · subst hs
        apply Finset.sum_eq_zero
        intro k _
        have : getPad [] ((i : ℤ) - k + centering_factor [] f) = 0 := by
          unfold getPad
          split <;> simp
        rw [this, mul_zero]
      · subst hf
        simp
  · have hmin : min s.length f.length = 0 := by
      rcases h with hs | hf
      · rw [hs]
        simp
      · rw [hf]
        simp
    unfold centering_factor
    have hc : ((s.length : ℤ) ⊓ (f.length : ℤ)) = 0 := by
      rw [← Nat.cast_min, hmin]
      rfl
    rw [hc]
    decide

theorem convolve_arrays_empty_input_witness :
    (([] : List ℚ) = [] ∨ ([8, 9] : List ℚ) = []) ∧
    (convolve_arrays [] [8, 9]
        = List.replicate (max (List.length ([] : List ℚ))
            (List.length ([8, 9] : List ℚ))) 0 ∧
      centering_factor [] [8, 9] = -1) :=
  ⟨Or.inl rfl, convolve_arrays_empty_input [] [8, 9] (Or.inl rfl)⟩

/-- C10: for non-empty `s`, the filtered signal handed to the decimator
inside `downsample_by_2` has length `max(len(s), 32) >= 1`, so the
decimator's empty-input branch is unreachable and `downsample_by_2` returns
normally. -/
theorem downsample_decimator_branch_unreachable (s : List ℚ) (hs : s ≠ []) :
    (convolve_arrays s KAISER_CONVOLUTION_FILTER).length = max s.length 32 ∧
    1 ≤ (convolve_arrays s KAISER_CONVOLUTION_FILTER).length ∧
    convolve_arrays s KAISER_CONVOLUTION_FILTER ≠ [] ∧
    ∃ l, downsample_by_2 s = .ok l := by
  have hlen := convolve_arrays_length s KAISER_CONVOLUTION_FILTER
  rw [kaiser_length] at hlen
  refine ⟨hlen, by omega, convolve_kaiser_ne_nil s, ⟨_, downsample_by_2_ok s hs⟩⟩

theorem downsample_decimator_branch_unreachable_witness :
    (([6] : List ℚ) ≠ []) ∧
    ((convolve_arrays [6] KAISER_CONVOLUTION_FILTER).length
        = max (List.length ([6] : List ℚ)) 32 ∧
      1 ≤ (convolve_arrays [6] KAISER_CONVOLUTION_FILTER).length ∧
      convolve_arrays [6] KAISER_CONVOLUTION_FILTER ≠ [] ∧
      ∃ l, downsample_by_2 [6] = .ok l) :=
  ⟨by decide, downsample_decimator_branch_unreachable [6] (by decide)⟩

end Solution
